import Mathlib

/-!
Verification of the schedule layout and direct-manipulation engine of the
malakal time-blocking calendar.

The development shallowly embeds the relevant parts of the source:

* `src/util.rs` — day arithmetic (`on_the_same_day`);
* `src/event.rs` — the `Event` record and its dirty-flag helpers;
* `src/widget/schedule_ui/interaction.rs` — the reversible `Change` records
  and their application to the event list (edit history / undo);
* `src/widget/schedule_ui.rs` — the event mutation rules
  (`move_event_start`, `move_event_end`, `move_event`) and the
  pointer-position to timestamp mappings (plain and snapping);
* `src/widget/schedule_ui/layout.rs` — the Markus overlap-layout algorithm.

Timestamps (`chrono DateTime with fixed offset`, all normalized to the single
display timezone) are embedded as integer seconds since the epoch in that
timezone; durations as integer seconds.  Pixel coordinates (`f32`) are
embedded as rationals; the `as i64` casts of the source are embedded as
truncation toward zero, which matches the cast on all in-range values.
-/

namespace Malakal

/-! ## Time model (src/util.rs) -/

def secsPerDay : Int := 86400

/-- The calendar day of a timestamp in the display timezone
(chrono DateTime date method), as a day number: floor division by 86400. -/
def dateOf (t : Int) : Int := t.fdiv secsPerDay

/-- Midnight (00:00:00) of a given day number (`date.and_hms(0, 0, 0)`). -/
def midnight (d : Int) : Int := d * secsPerDay

/-- `on_the_same_day` from src/util.rs: true when the two times fall on the
same calendar day, or when the later one is exactly midnight of the day
after the day of the earlier one. -/
def on_the_same_day (t1 t2 : Int) : Bool :=
  if dateOf t1 = dateOf t2 then
    true
  else if t2 < t1 then
    -- the source swaps the two times so that the earlier one comes first
    if midnight (dateOf t2 + 1) = t1 then true else false
  else
    if midnight (dateOf t1 + 1) = t2 then true else false

/-! ## Events (src/event.rs)

`color` is a `[f32; 3]` in the source; it is carried around but never
computed with, so it is embedded as a triple of rationals.  `mark_changed`
and `mark_deleted` read the wall clock (`now`); the clock is passed
explicitly. -/

abbrev EventId := String

structure Event where
  id : EventId
  calendar : String
  title : String
  start : Int
  «end» : Int
  timestamp : Int
  created_at : Int
  modified_at : Int
  description : Option String
  color : ℚ × ℚ × ℚ
  deleted : Bool
  changed : Bool
deriving DecidableEq, Repr

def Event.mark_changed (e : Event) (now : Int) : Event :=
  { e with modified_at := now, changed := true }

def Event.mark_deleted (e : Event) (now : Int) : Event :=
  { e with modified_at := now, deleted := true }

/-! ## Changes and undo (src/widget/schedule_ui/interaction.rs) -/

inductive Change where
  | Added (new : Event)
  | Removed (old : Event)
  | Modified (old new : Event)
deriving DecidableEq, Repr

def Change.reverse : Change → Change
  | .Added new => .Removed new
  | .Removed old => .Added old
  | .Modified old new => .Modified new old

/-- `events.iter_mut().find(|e| e.id == id)` followed by a mutation of the
found element: rewrite the first event with the given id. -/
def modifyFirst (events : List Event) (i : EventId) (f : Event → Event) :
    List Event :=
  match events with
  | [] => []
  | e :: rest =>
      if e.id = i then f e :: rest else e :: modifyFirst rest i f

/-- First event with the given id, if any (`events.iter().find(...)`). -/
def findFirst (events : List Event) (i : EventId) : Option Event :=
  events.find? (fun e => e.id == i)

/-- `Change::apply` from src/widget/schedule_ui/interaction.rs.  `now` is
the wall-clock instant at which the dirty-flag helpers run. -/
def Change.apply (c : Change) (now : Int) (events : List Event) :
    List Event :=
  match c with
  | .Added new => events ++ [new.mark_changed now]
  | .Removed old => modifyFirst events old.id (fun e => e.mark_deleted now)
  | .Modified old new => modifyFirst events old.id (fun _ => new.mark_changed now)

/-! ## ScheduleUi: mutation rules and temporal mapping
(src/widget/schedule_ui.rs)

Only the fields consulted by the embedded functions are kept; the
presentation-only fields (margins, formats, colors, ...) are omitted.
`first_day` is a `Date`, embedded as a day number. -/

structure ScheduleUi where
  day_count : Nat
  day_width : ℚ
  segment_count : Nat
  segment_height : ℚ
  first_day : Int
  min_event_duration : Int
  snapping_duration : Int
deriving Repr

def ScheduleUi.move_event_start (s : ScheduleUi) (event : Event)
    (new_start : Int) (now : Int) : Event :=
  if event.«end» < new_start + s.min_event_duration then
    event
  else if !(on_the_same_day new_start event.«end») then
    event
  else if event.start ≠ new_start then
    { event.mark_changed now with start := new_start }
  else
    event

def ScheduleUi.move_event_end (s : ScheduleUi) (event : Event)
    (new_end : Int) (now : Int) : Event :=
  if new_end < event.start + s.min_event_duration then
    event
  else if !(on_the_same_day event.start new_end) then
    event
  else if event.«end» ≠ new_end then
    { event.mark_changed now with «end» := new_end }
  else
    event

def ScheduleUi.move_event (s : ScheduleUi) (event : Event)
    (new_start : Int) (now : Int) : Event :=
  let duration := event.«end» - event.start
  let new_end := new_start + duration
  if !(on_the_same_day new_start new_end) then
    event
  else if event.start ≠ new_start ∨ event.«end» ≠ new_end then
    { event.mark_changed now with start := new_start, «end» := new_end }
  else
    event

/-- Relative pointer position (egui `Pos2`), embedded over ℚ. -/
structure Pos2 where
  x : ℚ
  y : ℚ
deriving DecidableEq, Repr

/-- Rust `as i64` on an in-range float: truncation toward zero. -/
def truncQ (q : ℚ) : Int :=
  if q < 0 then -⌊-q⌋ else ⌊q⌋

def ScheduleUi.content_height (s : ScheduleUi) : ℚ :=
  s.segment_height * s.segment_count

def ScheduleUi.pointer_pos_to_datetime (s : ScheduleUi) (rel_pos : Pos2) :
    Option Int :=
  let day := truncQ (rel_pos.x / s.day_width)
  if ¬(day ≥ 0 ∧ day < (s.day_count : Int)) then
    none
  else
    let vert_pos := rel_pos.y / s.content_height
    if ¬(vert_pos > 0 ∧ vert_pos < 1) then
      none
    else
      let seconds := truncQ ((secsPerDay : ℚ) * vert_pos)
      some (midnight (s.first_day + day) + seconds)

def ScheduleUi.pointer_pos_to_datetime_snapping (s : ScheduleUi)
    (rel_pos : Pos2) : Option Int :=
  let day := truncQ (rel_pos.x / s.day_width)
  if ¬(day ≥ 0 ∧ day < (s.day_count : Int)) then
    none
  else
    let vert_pos := rel_pos.y / s.content_height
    if vert_pos < 0 then
      -- vert_pos may exceed 1.0, to allow snapping to the end of day
      none
    else
      let seconds := (secsPerDay : ℚ) * vert_pos
      let snapped := ⌊seconds / (s.snapping_duration : ℚ)⌋ * s.snapping_duration
      let snapped := if snapped > secsPerDay then secsPerDay else snapped
      some (midnight (s.first_day + day) + snapped)

/-! ## The Markus layout algorithm (src/widget/schedule_ui/layout.rs)

`Ev` is the layout input record.  Hash maps keyed by event id are embedded
as association lists in which an insert overwrites the previous binding for
the key; every predicate the source evaluates over a map (`any` over the
whole map or over a filtered subset) is insensitive to iteration order, so
the list representation is faithful. -/

structure Ev where
  id : EventId
  start : Int
  «end» : Int
deriving DecidableEq, Repr

def overlaps (e1 e2 : Ev) : Bool :=
  decide (max e1.start e2.start < min e1.«end» e2.«end»)

/-- Lookup in the `ev_map` hash map built by iterating over the event list
(`events.iter().map(|e| (e.id, e)).collect()`): the last insert for a key
wins. -/
def evMapFind (events : List Ev) (i : EventId) : Option Ev :=
  events.foldl (fun acc e => if e.id = i then some e else acc) none

/-- `overlaps(event, ev_map[id])`.  The `none` branch is unreachable in the
algorithm (group keys always come from the event list; the source would
panic on a missing key). -/
def overlapsId (events : List Ev) (e : Ev) (i : EventId) : Bool :=
  match evMapFind events i with
  | some e2 => overlaps e e2
  | none => false

/-- Hash-map insert on an association list: overwrite the binding. -/
def mapInsert (g : List (EventId × Nat)) (i : EventId) (c : Nat) :
    List (EventId × Nat) :=
  (i, c) :: g.filter (fun p => p.1 != i)

/-- Occupant test for one column: some member of the group sitting in this
column overlaps the event in time. -/
def slotUsed (events : List Ev) (g : List (EventId × Nat)) (e : Ev)
    (col : Nat) : Bool :=
  (g.filter (fun p => p.2 == col)).any (fun p => overlapsId events e p.1)

/-- Loop state of `MarkusAlgorithm::compute`: closed groups (with their
final widths), the currently open group, and its width. -/
structure MState where
  groups : List (List (EventId × Nat) × Nat)
  group : List (EventId × Nat)
  group_width : Nat
deriving Repr

/-- One iteration of the event loop of `MarkusAlgorithm::compute`. -/
def markusStep (events : List Ev) (st : MState) (event : Ev) : MState :=
  if st.group.isEmpty then
    { st with group := mapInsert st.group event.id 0 }
  else if !(st.group.any (fun p => overlapsId events event p.1)) then
    -- no overlap with the current group: close it and start a new one
    { groups := st.groups ++ [(st.group, st.group_width)],
      group := mapInsert [] event.id 0,
      group_width := 1 }
  else
    -- scan columns 0..=group_width for a free slot
    match (List.range (st.group_width + 1)).find?
        (fun col => !(slotUsed events st.group event col)) with
    | some col =>
        { st with
            group := mapInsert st.group event.id col,
            group_width := max st.group_width (col + 1) }
    | none => st

def layoutInsert (l : List (EventId × (ℚ × ℚ))) (i : EventId) (v : ℚ × ℚ) :
    List (EventId × (ℚ × ℚ)) :=
  (i, v) :: l.filter (fun p => p.1 != i)

/-- `Layout::query`. -/
def layoutQuery (l : List (EventId × (ℚ × ℚ))) (i : EventId) :
    Option (ℚ × ℚ) :=
  (l.find? (fun p => p.1 == i)).map (fun p => p.2)

/-- The horizontal span emitted for a column assignment. -/
def spanOf (col width : Nat) : ℚ × ℚ :=
  ((col : ℚ) / (width : ℚ), ((col : ℚ) + 1) / (width : ℚ))

/-- The final layout map built from the groups. -/
def layoutOfGroups (groups : List (List (EventId × Nat) × Nat)) :
    List (EventId × (ℚ × ℚ)) :=
  groups.foldl
    (fun acc gw =>
      gw.1.foldl (fun acc2 p => layoutInsert acc2 p.1 (spanOf p.2 gw.2)) acc)
    []

/-- `events.sort_by_key(|e| e.start)`: a stable sort by start time. -/
def markusSorted (events : List Ev) : List Ev :=
  events.mergeSort (fun a b => decide (a.start ≤ b.start))

/-- The event loop of `MarkusAlgorithm::compute`, starting from an empty
current group of width 1 and no closed groups. -/
def markusFold (sorted : List Ev) : MState :=
  sorted.foldl (markusStep sorted) ⟨[], [], 1⟩

/-- The closed groups after the loop, with the last (non-empty) group
flushed. -/
def markusAllGroups (events : List Ev) : List (List (EventId × Nat) × Nat) :=
  let fin := markusFold (markusSorted events)
  if fin.group.isEmpty then fin.groups
  else fin.groups ++ [(fin.group, fin.group_width)]

/-- `MarkusAlgorithm::compute`: sort by start time (stable), run the group
loop, flush the last group, and emit the spans. -/
def markusCompute (events : List Ev) : List (EventId × (ℚ × ℚ)) :=
  layoutOfGroups (markusAllGroups events)

/-! ## Sample values for witnesses and counterexamples

`sampleUi` uses the builder defaults of the source (day width 260 px,
24 segments of 80 px, 15 minute minimum and snapping durations). -/

def sampleUi : ScheduleUi :=
  { day_count := 3, day_width := 260, segment_count := 24,
    segment_height := 80, first_day := 0, min_event_duration := 900,
    snapping_duration := 900 }

def sampleEvent : Event :=
  { id := "ev1", calendar := "personal", title := "work",
    start := 36000, «end» := 36900, timestamp := 0, created_at := 0,
    modified_at := 0, description := none, color := (0, 0, 0),
    deleted := false, changed := false }

def sampleEvent2 : Event := { sampleEvent with start := 37000, «end» := 37900 }

def shortEvent : Event := { sampleEvent with id := "ev2", «end» := 36060 }

/-! ## C10: reverse is an involution -/

/-- C10: `Change.reverse` is an involution: for every `Change` (Added,
Removed, or Modified), reversing twice yields the original change. -/
theorem change_reverse_involution (c : Change) : c.reverse.reverse = c := by
  cases c <;> rfl

/-! ## C8: mutation rules are no-ops on an equal target -/

/-- C8: each of `move_event_start`, `move_event_end` and `move_event` is an
idempotent no-op when the target time equals the current value: the event
is returned entirely unchanged, so in particular its `changed` flag and
`modified_at` field are untouched. -/
theorem move_noop_on_equal_target (s : ScheduleUi) (e : Event)
    (now : Int) :
    s.move_event_start e e.start now = e ∧
    s.move_event_end e e.«end» now = e ∧
    s.move_event e e.start now = e := by
  refine ⟨?_, ?_, ?_⟩
  · unfold ScheduleUi.move_event_start
    split_ifs with h1 h2 h3
    any_goals rfl
    exact absurd rfl h3
  · unfold ScheduleUi.move_event_end
    split_ifs with h1 h2 h3
    any_goals rfl
    exact absurd rfl h3
  · simp only [ScheduleUi.move_event]
    split_ifs with h1 h2
    · rfl
    · exfalso
      rcases h2 with h | h
      · exact h rfl
      · omega
    · rfl

/-! ## C4: the day-boundary guard -/

/-- The day-crossing condition in the words of the claim: the date of one
endpoint differs from the date of the other, and the allowed exception
(one endpoint being exactly midnight of the day following the date of the
other one) does not apply. -/
def spansTwoDays (t1 t2 : Int) : Prop :=
  dateOf t1 ≠ dateOf t2 ∧
  ¬(t2 = midnight (dateOf t1 + 1) ∨ t1 = midnight (dateOf t2 + 1))

instance (t1 t2 : Int) : Decidable (spansTwoDays t1 t2) := by
  unfold spansTwoDays
  infer_instance

theorem dateOf_eq_ediv (t : Int) : dateOf t = t / 86400 :=
  Int.fdiv_eq_ediv t (by decide)

/-- The negation of the source predicate `on_the_same_day` is exactly the
day-crossing condition of the claim. -/
theorem on_the_same_day_false_iff (t1 t2 : Int) :
    on_the_same_day t1 t2 = false ↔ spansTwoDays t1 t2 := by
  unfold on_the_same_day spansTwoDays midnight
  simp only [dateOf_eq_ediv, secsPerDay]
  split_ifs with h1 h2 h3 h3 <;> simp <;> omega

/-- C4: if a move or resize would make the event span two calendar days
(the moved endpoint landing on a different date than the fixed endpoint,
except for landing exactly on midnight of the following day), the mutation
rule leaves the event entirely unchanged — start, end and the `changed`
flag included. -/
theorem day_boundary_guard (s : ScheduleUi) (e : Event) (t now : Int) :
    (spansTwoDays t e.«end» → s.move_event_start e t now = e) ∧
    (spansTwoDays e.start t → s.move_event_end e t now = e) ∧
    (spansTwoDays t (t + (e.«end» - e.start)) → s.move_event e t now = e) := by
  refine ⟨fun h => ?_, fun h => ?_, fun h => ?_⟩
  · unfold ScheduleUi.move_event_start
    split_ifs with h1 h2 h3
    any_goals rfl
    all_goals
      exact absurd (by rw [(on_the_same_day_false_iff _ _).2 h]; rfl) h2
  · unfold ScheduleUi.move_event_end
    split_ifs with h1 h2 h3
    any_goals rfl
    all_goals
      exact absurd (by rw [(on_the_same_day_false_iff _ _).2 h]; rfl) h2
  · simp only [ScheduleUi.move_event]
    split_ifs with h1 h2
    any_goals rfl
    all_goals
      exact absurd (by rw [(on_the_same_day_false_iff _ _).2 h]; rfl) h1

/-- Witness for C4: moving the start of the sample event to a time two
days earlier is rejected and the event is returned unchanged. -/
theorem day_boundary_guard_witness :
    spansTwoDays (-100000) sampleEvent.«end» ∧
    sampleUi.move_event_start sampleEvent (-100000) 42 = sampleEvent :=
  ⟨by decide,
   (day_boundary_guard sampleUi sampleEvent (-100000) 42).1 (by decide)⟩

/-! ## C3: minimum duration after a successful move or resize -/

/-- C3 (counterexample): `move_event` does not enforce the minimum
duration.  Moving an event that is only 60 seconds long modifies the event
(the move succeeds) yet leaves its duration below
`min_event_duration = 900` seconds. -/
theorem min_duration_counterexample :
    sampleUi.move_event shortEvent 36120 42 ≠ shortEvent ∧
    (sampleUi.move_event shortEvent 36120 42).«end» -
        (sampleUi.move_event shortEvent 36120 42).start <
      sampleUi.min_event_duration := by
  decide

/-- C3 (amended): after a modifying `move_event_start` or `move_event_end`
the event satisfies `end - start ≥ min_event_duration`; `move_event`
always preserves the duration exactly (so the bound holds after a move
whenever it held before), but does not itself establish the bound. -/
theorem min_duration_after_move (s : ScheduleUi) (e : Event)
    (t now : Int) :
    (s.move_event_start e t now ≠ e →
      s.min_event_duration ≤
        (s.move_event_start e t now).«end» -
          (s.move_event_start e t now).start) ∧
    (s.move_event_end e t now ≠ e →
      s.min_event_duration ≤
        (s.move_event_end e t now).«end» -
          (s.move_event_end e t now).start) ∧
    (s.move_event e t now).«end» - (s.move_event e t now).start =
      e.«end» - e.start := by
  refine ⟨fun hmod => ?_, fun hmod => ?_, ?_⟩
  · unfold ScheduleUi.move_event_start at hmod ⊢
    split_ifs at hmod ⊢ with h1 h2 h3
    any_goals exact absurd rfl hmod
    show s.min_event_duration ≤ e.«end» - t
    omega
  · unfold ScheduleUi.move_event_end at hmod ⊢
    split_ifs at hmod ⊢ with h1 h2 h3
    any_goals exact absurd rfl hmod
    show s.min_event_duration ≤ t - e.start
    omega
  · simp only [ScheduleUi.move_event]
    split_ifs with h1 h2
    any_goals rfl
    show t + (e.«end» - e.start) - t = e.«end» - e.start
    omega

/-- Witness for C3 (amended): a successful resize of the sample event
through `move_event_start` ends with at least the minimum duration. -/
theorem min_duration_after_move_witness :
    sampleUi.move_event_start sampleEvent 35100 42 ≠ sampleEvent ∧
    sampleUi.min_event_duration ≤
      (sampleUi.move_event_start sampleEvent 35100 42).«end» -
        (sampleUi.move_event_start sampleEvent 35100 42).start :=
  ⟨by decide,
   (min_duration_after_move sampleUi sampleEvent 35100 42).1 (by decide)⟩

/-! ## C2: the undo round-trip -/

/-- C2 (counterexample): committing an `Added` change on the empty event
list and undoing it does not restore the empty list: the reverse change
(`Removed`) only marks the pushed event as deleted, so the list keeps one
element. -/
theorem undo_roundtrip_counterexample :
    (Change.Added sampleEvent).reverse.apply 43
        ((Change.Added sampleEvent).apply 42 []) ≠ ([] : List Event) := by
  decide

theorem modifyFirst_replace_replace (l : List Event) (i : EventId)
    (a b : Event) (ha : a.id = i) :
    modifyFirst (modifyFirst l i (fun _ => a)) i (fun _ => b) =
      modifyFirst l i (fun _ => b) := by
  induction l with
  | nil => rfl
  | cons e rest ih =>
      by_cases h : e.id = i
      · simp [modifyFirst, h, ha]
      · simp [modifyFirst, h, ih]

theorem modifyFirst_append_of_not_mem (l1 l2 : List Event) (i : EventId)
    (f : Event → Event) (h : i ∉ l1.map Event.id) :
    modifyFirst (l1 ++ l2) i f = l1 ++ modifyFirst l2 i f := by
  induction l1 with
  | nil => rfl
  | cons e rest ih =>
      rw [List.map_cons, List.mem_cons] at h
      push_neg at h
      have hne : ¬(e.id = i) := fun hh => h.1 hh.symm
      simp only [List.cons_append, modifyFirst, if_neg hne, List.append_eq,
        ih h.2]

/-- C2 (amended): commit-then-undo does not restore the exact pre-commit
state; what holds is: for a `Modified` change on a single event (`old` and
`new` share the id), the result is the original list with its first entry
for that id replaced by `old` with the `changed` flag set and `modified_at`
bumped to the undo instant — every other field and every other event is
restored exactly, and membership is preserved; for an `Added` change of a
fresh id, the added event stays in the list, marked both changed and
deleted (it disappears only at the next flush); for a `Removed` change,
the original entry is left marked deleted and a restored copy (marked
changed) is appended. -/
theorem undo_roundtrip_amended (old new : Event) (events : List Event)
    (n1 n2 : Int) :
    (new.id = old.id →
      (Change.Modified old new).reverse.apply n2
          ((Change.Modified old new).apply n1 events) =
        modifyFirst events old.id (fun _ => old.mark_changed n2)) ∧
    (old.id ∉ events.map Event.id →
      (Change.Added old).reverse.apply n2
          ((Change.Added old).apply n1 events) =
        events ++ [(old.mark_changed n1).mark_deleted n2]) ∧
    ((Change.Removed old).reverse.apply n2
        ((Change.Removed old).apply n1 events) =
      modifyFirst events old.id (fun e => e.mark_deleted n1) ++
        [old.mark_changed n2]) := by
  refine ⟨?_, ?_, rfl⟩
  · intro hid
    show modifyFirst (modifyFirst events old.id fun _ => new.mark_changed n1)
        new.id (fun _ => old.mark_changed n2) = _
    rw [hid]
    exact modifyFirst_replace_replace events old.id _ _
      (by simp [Event.mark_changed, hid])
  · intro hmem
    show modifyFirst (events ++ [old.mark_changed n1]) old.id
        (fun e => e.mark_deleted n2) = _
    rw [modifyFirst_append_of_not_mem _ _ _ _ hmem]
    simp [modifyFirst, Event.mark_changed]

/-- Witness for C2 (amended), on a one-element store: a `Modified` change
touching that element, and a `Removed` change of the same element. -/
theorem undo_roundtrip_amended_witness :
    sampleEvent2.id = sampleEvent.id ∧
    ((Change.Modified sampleEvent sampleEvent2).reverse.apply 43
        ((Change.Modified sampleEvent sampleEvent2).apply 42 [sampleEvent]) =
      modifyFirst [sampleEvent] sampleEvent.id
        (fun _ => sampleEvent.mark_changed 43)) ∧
    ((Change.Removed sampleEvent).reverse.apply 43
        ((Change.Removed sampleEvent).apply 42 [sampleEvent]) =
      modifyFirst [sampleEvent] sampleEvent.id
          (fun e => e.mark_deleted 42) ++
        [sampleEvent.mark_changed 43]) :=
  ⟨rfl,
   (undo_roundtrip_amended sampleEvent sampleEvent2 [sampleEvent] 42 43).1 rfl,
   (undo_roundtrip_amended sampleEvent sampleEvent2 [sampleEvent] 42 43).2.2⟩

/-! ## C5 and C6: temporal mapping -/

theorem truncQ_le_neg_one {q : ℚ} (h : q ≤ -1) : truncQ q ≤ -1 := by
  unfold truncQ
  rw [if_pos (by linarith)]
  have h1 : (1 : Int) ≤ ⌊-q⌋ := by
    rw [Int.le_floor]
    push_cast
    linarith
  omega

theorem le_truncQ_of_cast_le {n : Nat} {q : ℚ} (h : (n : ℚ) ≤ q) :
    (n : Int) ≤ truncQ q := by
  unfold truncQ
  rw [if_neg (by push_neg; exact le_trans (Nat.cast_nonneg n) h)]
  rw [Int.le_floor]
  push_cast
  exact h

/-- C6 (counterexample): the claim says every position with `x < 0` is
rejected, but the `as i64` cast truncates toward zero, so every x in
`(-day_width, 0)` yields day index 0 and is accepted: at x = -50 (with day
width 260) the unsnapped mapping returns a timestamp. -/
theorem pointer_grid_counterexample :
    (-50 : ℚ) < 0 ∧
    sampleUi.pointer_pos_to_datetime ⟨-50, 960⟩ = some 43200 := by
  constructor
  · norm_num
  · norm_num [ScheduleUi.pointer_pos_to_datetime, ScheduleUi.content_height,
      truncQ, sampleUi, secsPerDay, midnight]

/-- C6 (amended): the temporal mappings return `none` whenever the
truncated day index falls outside `[0, day_count)` — in particular for
every position with `x ≤ -day_width` or `x ≥ day_count * day_width`
(positions with `-day_width < x < 0` truncate to day 0 and are accepted) —
and the unsnapped variant additionally returns `none` unless the vertical
fraction `y / content_height` lies strictly inside `(0, 1)`. -/
theorem pointer_grid_rejection (s : ScheduleUi) (pos : Pos2)
    (hw : 0 < s.day_width) :
    ((pos.x ≤ -s.day_width ∨ (s.day_count : ℚ) * s.day_width ≤ pos.x) →
      s.pointer_pos_to_datetime pos = none ∧
      s.pointer_pos_to_datetime_snapping pos = none) ∧
    (¬(0 < pos.y / s.content_height ∧ pos.y / s.content_height < 1) →
      s.pointer_pos_to_datetime pos = none) := by
  constructor
  · intro hx
    have hday : ¬(truncQ (pos.x / s.day_width) ≥ 0 ∧
        truncQ (pos.x / s.day_width) < (s.day_count : Int)) := by
      rcases hx with hx | hx
      · rintro ⟨h0, -⟩
        have hq : pos.x / s.day_width ≤ -1 := by
          rw [div_le_iff₀ hw]
          linarith
        have := truncQ_le_neg_one hq
        omega
      · rintro ⟨-, hlt⟩
        have hcast : ((s.day_count : ℚ)) ≤ pos.x / s.day_width := by
          rw [le_div_iff₀ hw]
          exact hx
        have := le_truncQ_of_cast_le hcast
        omega
    constructor
    · simp only [ScheduleUi.pointer_pos_to_datetime]
      rw [if_pos hday]
    · simp only [ScheduleUi.pointer_pos_to_datetime_snapping]
      rw [if_pos hday]
  · intro hy
    simp only [ScheduleUi.pointer_pos_to_datetime]
    split_ifs <;> rfl

/-- Witness for C6 (amended): at x = -260 = -day_width the mappings both
reject. -/
theorem pointer_grid_rejection_witness :
    ((-260 : ℚ) ≤ -sampleUi.day_width ∨
      (sampleUi.day_count : ℚ) * sampleUi.day_width ≤ -260) ∧
    (sampleUi.pointer_pos_to_datetime ⟨-260, 10⟩ = none ∧
      sampleUi.pointer_pos_to_datetime_snapping ⟨-260, 10⟩ = none) :=
  ⟨Or.inl (by norm_num [sampleUi]),
   (pointer_grid_rejection sampleUi ⟨-260, 10⟩ (by norm_num [sampleUi])).1
     (Or.inl (by norm_num [sampleUi]))⟩

/-- C5: whenever the snapping temporal mapping accepts a pointer position,
the returned timestamp has a seconds-since-midnight value divisible by
`snapping_duration`, and the snapped seconds value is the floored multiple
of `snapping_duration`, clamped so it never exceeds 86400 (snapping to
midnight of the next day). -/
theorem snapping_multiple (s : ScheduleUi) (pos : Pos2) (t : Int)
    (hsnap : 0 < s.snapping_duration)
    (h : s.pointer_pos_to_datetime_snapping pos = some t) :
    s.snapping_duration ∣ t % 86400 ∧
    ∃ d sec : Int, 0 ≤ d ∧ d < (s.day_count : Int) ∧ 0 ≤ sec ∧
      sec ≤ 86400 ∧
      sec = min (⌊((86400 : ℚ) * (pos.y / s.content_height)) /
            (s.snapping_duration : ℚ)⌋ * s.snapping_duration) 86400 ∧
      t = (s.first_day + d) * 86400 + sec := by
  simp only [ScheduleUi.pointer_pos_to_datetime_snapping, midnight,
    secsPerDay] at h
  push_cast at h
  set day := truncQ (pos.x / s.day_width) with hday
  set A := ⌊(86400 : ℚ) * (pos.y / s.content_height) /
      (s.snapping_duration : ℚ)⌋ * s.snapping_duration with hA
  have hsec : (if A > 86400 then (86400 : Int) else A) = min A 86400 := by
    rw [min_def]
    split_ifs <;> omega
  rw [hsec] at h
  split_ifs at h with h1 h2
  rw [Option.some_inj] at h
  have hA0 : 0 ≤ A := by
    have hX : (0 : ℚ) ≤ (86400 : ℚ) * (pos.y / s.content_height) /
        (s.snapping_duration : ℚ) := by
      apply div_nonneg
      · exact mul_nonneg (by norm_num) (not_lt.mp h2)
      · exact_mod_cast le_of_lt hsnap
    exact mul_nonneg (Int.floor_nonneg.2 hX) (le_of_lt hsnap)
  refine ⟨?_, day, min A 86400, h1.1, h1.2, le_min hA0 (by norm_num),
    min_le_right _ _, rfl, h.symm⟩
  have ht : t % 86400 = (min A 86400) % 86400 := by omega
  by_cases hcase : min A 86400 = 86400
  · rw [ht, hcase]
    simp
  · have hlt : min A 86400 < 86400 :=
      lt_of_le_of_ne (min_le_right _ _) hcase
    have hmod : (min A 86400) % 86400 = min A 86400 :=
      Int.emod_eq_of_lt (le_min hA0 (by norm_num)) hlt
    rw [ht, hmod]
    have hAle : min A 86400 = A := by omega
    rw [hAle, hA]
    exact dvd_mul_left _ _

/-- Witness for C5 at a concrete position (day 0, y = 970 px, which snaps
43650 s down to 43200 s, a multiple of the 900 s snapping duration). -/
theorem snapping_multiple_witness :
    0 < sampleUi.snapping_duration ∧
    (sampleUi.snapping_duration ∣ (43200 : Int) % 86400 ∧
      ∃ d sec : Int, 0 ≤ d ∧ d < (sampleUi.day_count : Int) ∧ 0 ≤ sec ∧
        sec ≤ 86400 ∧
        sec = min (⌊((86400 : ℚ) * ((Pos2.mk 10 970).y /
              sampleUi.content_height)) /
              (sampleUi.snapping_duration : ℚ)⌋ *
            sampleUi.snapping_duration) 86400 ∧
        (43200 : Int) = (sampleUi.first_day + d) * 86400 + sec) :=
  ⟨by decide,
   snapping_multiple sampleUi ⟨10, 970⟩ 43200 (by decide)
     (by norm_num [ScheduleUi.pointer_pos_to_datetime_snapping, sampleUi,
       truncQ, midnight, secsPerDay, ScheduleUi.content_height])⟩

/-! ## C1, C7, C9: Markus layout invariants

Structural invariants of the loop state: the width is at least 1, and every
assigned column is strictly below the width of its group. -/

def colsOK (gw : List (EventId × Nat) × Nat) : Prop :=
  ∀ p ∈ gw.1, p.2 < gw.2

def invA (st : MState) : Prop :=
  1 ≤ st.group_width ∧ (∀ p ∈ st.group, p.2 < st.group_width) ∧
    ∀ gw ∈ st.groups, colsOK gw

theorem mapInsert_mem {g : List (EventId × Nat)} {i : EventId} {c : Nat}
    {p : EventId × Nat} (hp : p ∈ mapInsert g i c) : p = (i, c) ∨ p ∈ g := by
  unfold mapInsert at hp
  rcases List.mem_cons.mp hp with h | h
  · exact Or.inl h
  · exact Or.inr (List.mem_filter.mp h).1

theorem mapInsert_self_mem (g : List (EventId × Nat)) (i : EventId)
    (c : Nat) : (i, c) ∈ mapInsert g i c :=
  List.mem_cons_self _ _

theorem mapInsert_mem_of_ne {g : List (EventId × Nat)} {i : EventId}
    {c : Nat} {p : EventId × Nat} (hp : p ∈ g) (hne : p.1 ≠ i) :
    p ∈ mapInsert g i c := by
  unfold mapInsert
  exact List.mem_cons_of_mem _ (List.mem_filter.mpr ⟨hp, by simp [hne]⟩)

theorem slotUsed_false_of_cols_lt {evs : List Ev} {g : List (EventId × Nat)}
    {e : Ev} {w : Nat} (h : ∀ p ∈ g, p.2 < w) :
    slotUsed evs g e w = false := by
  unfold slotUsed
  have hnil : g.filter (fun p => p.2 == w) = [] := by
    rw [List.filter_eq_nil_iff]
    intro p hp
    simp only [beq_iff_eq]
    exact Nat.ne_of_lt (h p hp)
  rw [hnil]
  rfl

/-- The column scan always finds a free slot: column `group_width` has no
occupants, so the first free column exists and is at most `group_width`. -/
theorem find_free_col (evs : List Ev) (g : List (EventId × Nat)) (e : Ev)
    (w : Nat) (h : ∀ p ∈ g, p.2 < w) :
    ∃ col, (List.range (w + 1)).find?
        (fun c => !(slotUsed evs g e c)) = some col ∧ col ≤ w ∧
      slotUsed evs g e col = false := by
  have hw : slotUsed evs g e w = false := slotUsed_false_of_cols_lt h
  have hsome : ((List.range (w + 1)).find?
      (fun c => !(slotUsed evs g e c))).isSome := by
    rw [List.find?_isSome]
    exact ⟨w, List.mem_range.mpr (Nat.lt_succ_self w), by rw [hw]; rfl⟩
  rcases Option.isSome_iff_exists.mp hsome with ⟨col, hcol⟩
  refine ⟨col, hcol, ?_, ?_⟩
  · exact Nat.lt_succ_iff.mp
      (List.mem_range.mp (List.mem_of_find?_eq_some hcol))
  · have := List.find?_some hcol
    simpa using this

theorem invA_step (evs : List Ev) (st : MState) (e : Ev) (h : invA st) :
    invA (markusStep evs st e) := by
  obtain ⟨hw, hg, hgs⟩ := h
  unfold markusStep
  split_ifs with h1 h2
  · refine ⟨hw, ?_, hgs⟩
    intro p hp
    rcases mapInsert_mem hp with h | h
    · rw [h]
      show 0 < st.group_width
      omega
    · exact hg p h
  · refine ⟨le_refl 1, ?_, ?_⟩
    · intro p hp
      rcases mapInsert_mem hp with h | h
      · rw [h]
        show 0 < 1
        omega
      · cases h
    · intro gw hgw
      rcases List.mem_append.mp hgw with h | h
      · exact hgs gw h
      · rw [List.mem_singleton.mp h]
        exact fun p hp => hg p hp
  · cases hfind : (List.range (st.group_width + 1)).find?
        (fun c => !(slotUsed evs st.group e c)) with
    | none => exact ⟨hw, hg, hgs⟩
    | some col =>
        refine ⟨le_trans hw (le_max_left _ _), ?_, hgs⟩
        intro p hp
        rcases mapInsert_mem hp with h | h
        · rw [h]
          show col < max st.group_width (col + 1)
          omega
        · exact lt_of_lt_of_le (hg p h) (le_max_left _ _)

/-- Which event ids have already been given a place in the loop state. -/
def inState (i : EventId) (st : MState) : Prop :=
  (∃ p ∈ st.group, p.1 = i) ∨ ∃ gw ∈ st.groups, ∃ p ∈ gw.1, p.1 = i

theorem inState_step (evs : List Ev) (st : MState) (e : Ev) (i : EventId)
    (h : inState i st) : inState i (markusStep evs st e) := by
  unfold markusStep
  split_ifs with h1 h2
  · rcases h with ⟨p, hp, hpi⟩ | h
    · rw [List.isEmpty_iff] at h1
      rw [h1] at hp
      cases hp
    · exact Or.inr h
  · rcases h with ⟨p, hp, hpi⟩ | ⟨gw, hgw, hmem⟩
    · exact Or.inr ⟨(st.group, st.group_width),
        List.mem_append_right _ (List.mem_singleton_self _), p, hp, hpi⟩
    · exact Or.inr ⟨gw, List.mem_append_left _ hgw, hmem⟩
  · cases hfind : (List.range (st.group_width + 1)).find?
        (fun c => !(slotUsed evs st.group e c)) with
    | none => exact h
    | some col =>
        rcases h with ⟨p, hp, hpi⟩ | h
        · by_cases hpe : p.1 = e.id
          · exact Or.inl ⟨(e.id, col), mapInsert_self_mem _ _ _,
              by rw [← hpe, hpi]⟩
          · exact Or.inl ⟨p, mapInsert_mem_of_ne hp hpe, hpi⟩
        · exact Or.inr h

theorem inState_step_self (evs : List Ev) (st : MState) (e : Ev)
    (h : invA st) : inState e.id (markusStep evs st e) := by
  unfold markusStep
  split_ifs with h1 h2
  · exact Or.inl ⟨(e.id, 0), mapInsert_self_mem _ _ _, rfl⟩
  · exact Or.inl ⟨(e.id, 0), mapInsert_self_mem _ _ _, rfl⟩
  · obtain ⟨col, hfind, -, -⟩ :=
      find_free_col evs st.group e st.group_width h.2.1
    rw [hfind]
    exact Or.inl ⟨(e.id, col), mapInsert_self_mem _ _ _, rfl⟩

theorem invA_foldl (evs l : List Ev) (st : MState) (h : invA st) :
    invA (l.foldl (markusStep evs) st) := by
  induction l generalizing st with
  | nil => exact h
  | cons e l ih => exact ih _ (invA_step evs st e h)

theorem inState_foldl (evs l : List Ev) (st : MState) (i : EventId)
    (h : inState i st) : inState i (l.foldl (markusStep evs) st) := by
  induction l generalizing st with
  | nil => exact h
  | cons e l ih => exact ih _ (inState_step evs st e i h)

theorem inState_foldl_mem (evs l : List Ev) (st : MState) (e : Ev)
    (hA : invA st) (he : e ∈ l) :
    inState e.id (l.foldl (markusStep evs) st) := by
  induction l generalizing st with
  | nil => cases he
  | cons x l ih =>
      rcases List.mem_cons.mp he with rfl | he
      · exact inState_foldl evs l _ _ (inState_step_self evs st e hA)
      · exact ih _ (invA_step evs st x hA) he

theorem markusAllGroups_colsOK (events : List Ev) :
    ∀ gw ∈ markusAllGroups events, colsOK gw := by
  have hA : invA (markusFold (markusSorted events)) :=
    invA_foldl _ _ _ ⟨le_refl 1, by simp, by simp⟩
  simp only [markusAllGroups]
  split_ifs with hemp
  · exact hA.2.2
  · intro gw hgw
    rcases List.mem_append.mp hgw with h | h
    · exact hA.2.2 gw h
    · rw [List.mem_singleton.mp h]
      exact fun p hp => hA.2.1 p hp

theorem markusAllGroups_hasKey (events : List Ev) (i : EventId)
    (hi : i ∈ events.map Ev.id) :
    ∃ gw ∈ markusAllGroups events, ∃ q ∈ gw.1, q.1 = i := by
  obtain ⟨e, he, hei⟩ := List.mem_map.mp hi
  have hes : e ∈ markusSorted events :=
    (List.mergeSort_perm events _).mem_iff.mpr he
  have hin : inState e.id (markusFold (markusSorted events)) :=
    inState_foldl_mem _ _ _ _ ⟨le_refl 1, by simp, by simp⟩ hes
  simp only [markusAllGroups]
  rcases hin with ⟨p, hp, hpi⟩ | ⟨gw, hgw, q, hq, hqi⟩
  · split_ifs with hemp
    · rw [List.isEmpty_iff] at hemp
      rw [hemp] at hp
      cases hp
    · exact ⟨(_, _), List.mem_append_right _ (List.mem_singleton_self _),
        p, hp, by rw [hpi, hei]⟩
  · split_ifs with hemp
    · exact ⟨gw, hgw, q, hq, by rw [hqi, hei]⟩
    · exact ⟨gw, List.mem_append_left _ hgw, q, hq, by rw [hqi, hei]⟩

/-! Extraction lemmas for the final layout list. -/

theorem layoutInsert_mem {l : List (EventId × (ℚ × ℚ))} {i : EventId}
    {v : ℚ × ℚ} {p : EventId × (ℚ × ℚ)} (hp : p ∈ layoutInsert l i v) :
    p = (i, v) ∨ p ∈ l := by
  unfold layoutInsert at hp
  rcases List.mem_cons.mp hp with h | h
  · exact Or.inl h
  · exact Or.inr (List.mem_filter.mp h).1

theorem innerFold_mem (g : List (EventId × Nat)) (w : Nat)
    (acc : List (EventId × (ℚ × ℚ))) (p : EventId × (ℚ × ℚ))
    (h : p ∈ g.foldl (fun a q => layoutInsert a q.1 (spanOf q.2 w)) acc) :
    p ∈ acc ∨ ∃ q ∈ g, p = (q.1, spanOf q.2 w) := by
  induction g generalizing acc with
  | nil => exact Or.inl h
  | cons q g ih =>
      rcases ih _ h with h2 | ⟨r, hr, hrp⟩
      · rcases layoutInsert_mem h2 with h3 | h3
        · exact Or.inr ⟨q, List.mem_cons_self _ _, h3⟩
        · exact Or.inl h3
      · exact Or.inr ⟨r, List.mem_cons_of_mem _ hr, hrp⟩

theorem layoutOfGroups_mem (groups : List (List (EventId × Nat) × Nat))
    (p : EventId × (ℚ × ℚ)) (hp : p ∈ layoutOfGroups groups) :
    ∃ gw ∈ groups, ∃ q ∈ gw.1, p = (q.1, spanOf q.2 gw.2) := by
  unfold layoutOfGroups at hp
  suffices hgen : ∀ acc : List (EventId × (ℚ × ℚ)),
      p ∈ groups.foldl (fun acc gw =>
        gw.1.foldl (fun acc2 q => layoutInsert acc2 q.1 (spanOf q.2 gw.2)) acc)
        acc →
      p ∈ acc ∨ ∃ gw ∈ groups, ∃ q ∈ gw.1, p = (q.1, spanOf q.2 gw.2) by
    rcases hgen [] hp with h | h
    · cases h
    · exact h
  clear hp
  induction groups with
  | nil => exact fun acc h => Or.inl h
  | cons gw groups ih =>
      intro acc h
      rcases ih _ h with h2 | ⟨gw2, hgw2, hq⟩
      · rcases innerFold_mem _ _ _ _ h2 with h3 | ⟨q, hq, hpq⟩
        · exact Or.inl h3
        · exact Or.inr ⟨gw, List.mem_cons_self _ _, q, hq, hpq⟩
      · exact Or.inr ⟨gw2, List.mem_cons_of_mem _ hgw2, hq⟩

def hasKey (l : List (EventId × (ℚ × ℚ))) (i : EventId) : Prop :=
  ∃ p ∈ l, p.1 = i

theorem hasKey_layoutInsert (l : List (EventId × (ℚ × ℚ))) (i j : EventId)
    (v : ℚ × ℚ) (h : hasKey l j ∨ j = i) : hasKey (layoutInsert l i v) j := by
  rcases h with ⟨p, hp, hpj⟩ | rfl
  · by_cases hpi : p.1 = i
    · exact ⟨(i, v), List.mem_cons_self _ _, by rw [← hpi, hpj]⟩
    · exact ⟨p, List.mem_cons_of_mem _
        (List.mem_filter.mpr ⟨hp, by simp [hpi]⟩), hpj⟩
  · exact ⟨(j, v), List.mem_cons_self _ _, rfl⟩

theorem hasKey_innerFold (g : List (EventId × Nat)) (w : Nat)
    (acc : List (EventId × (ℚ × ℚ))) (j : EventId)
    (h : hasKey acc j ∨ ∃ q ∈ g, q.1 = j) :
    hasKey (g.foldl (fun a q => layoutInsert a q.1 (spanOf q.2 w)) acc) j := by
  induction g generalizing acc with
  | nil =>
      rcases h with h | ⟨q, hq, -⟩
      · exact h
      · cases hq
  | cons q g ih =>
      apply ih
      rcases h with h | ⟨r, hr, hrj⟩
      · exact Or.inl (hasKey_layoutInsert _ _ _ _ (Or.inl h))
      · rcases List.mem_cons.mp hr with rfl | hr
        · exact Or.inl (hasKey_layoutInsert _ _ _ _ (Or.inr hrj.symm))
        · exact Or.inr ⟨r, hr, hrj⟩

theorem hasKey_outerFold (groups : List (List (EventId × Nat) × Nat))
    (acc : List (EventId × (ℚ × ℚ))) (j : EventId)
    (h : hasKey acc j ∨ ∃ gw ∈ groups, ∃ q ∈ gw.1, q.1 = j) :
    hasKey (groups.foldl (fun acc gw =>
      gw.1.foldl (fun acc2 q => layoutInsert acc2 q.1 (spanOf q.2 gw.2)) acc)
      acc) j := by
  induction groups generalizing acc with
  | nil =>
      rcases h with h | ⟨gw, hgw, -⟩
      · exact h
      · cases hgw
  | cons gw groups ih =>
      apply ih
      rcases h with h | ⟨gw2, hgw2, q, hq, hqj⟩
      · exact Or.inl (hasKey_innerFold _ _ _ _ (Or.inl h))
      · rcases List.mem_cons.mp hgw2 with rfl | hgw2
        · exact Or.inl (hasKey_innerFold _ _ _ _ (Or.inr ⟨q, hq, hqj⟩))
        · exact Or.inr ⟨gw2, hgw2, q, hq, hqj⟩

/-- Shared core of the totality and span-bound facts: every input id is mapped, to a span of the
form `[col/width, (col+1)/width)` with `col < width`. -/
theorem markus_query_shape (events : List Ev) (i : EventId)
    (hi : i ∈ events.map Ev.id) :
    ∃ c w : Nat, layoutQuery (markusCompute events) i = some (spanOf c w) ∧
      c < w := by
  obtain ⟨gw, hgw, q, hq, hqi⟩ := markusAllGroups_hasKey events i hi
  have hkey : hasKey (markusCompute events) i := by
    unfold markusCompute layoutOfGroups
    exact hasKey_outerFold _ _ _ (Or.inr ⟨gw, hgw, q, hq, hqi⟩)
  obtain ⟨p, hp, hpi⟩ := hkey
  have hsome : ((markusCompute events).find? (fun r => r.1 == i)).isSome := by
    rw [List.find?_isSome]
    exact ⟨p, hp, by simp [hpi]⟩
  rcases Option.isSome_iff_exists.mp hsome with ⟨r, hr⟩
  have hrl : r ∈ markusCompute events := List.mem_of_find?_eq_some hr
  obtain ⟨gw2, hgw2, q2, hq2, hq2r⟩ := layoutOfGroups_mem _ r hrl
  refine ⟨q2.2, gw2.2, ?_, markusAllGroups_colsOK events gw2 hgw2 q2 hq2⟩
  unfold layoutQuery
  rw [hr, hq2r]
  rfl

/-- C9: the Markus layout algorithm is total on its input: every event in
the list passed to `compute` receives a horizontal span in the resulting
layout (querying its id returns `some`); in particular the column scan
always finds a free column. -/
theorem markus_total (events : List Ev) (i : EventId)
    (hi : i ∈ events.map Ev.id) :
    ∃ v, layoutQuery (markusCompute events) i = some v := by
  obtain ⟨c, w, hq, -⟩ := markus_query_shape events i hi
  exact ⟨spanOf c w, hq⟩

/-- Witness for C9: the id of a concrete event appears in the layout. -/
theorem markus_total_witness :
    ("A" : EventId) ∈ ([⟨"A", 0, 3600⟩] : List Ev).map Ev.id ∧
    ∃ v, layoutQuery (markusCompute [⟨"A", 0, 3600⟩]) "A" = some v :=
  ⟨by decide, markus_total [⟨"A", 0, 3600⟩] "A" (by decide)⟩

theorem spanOf_bounds {c w : Nat} (h : c < w) :
    0 ≤ (spanOf c w).1 ∧ (spanOf c w).1 < (spanOf c w).2 ∧
      (spanOf c w).2 ≤ 1 := by
  have hw : (0 : ℚ) < w := by
    have : 0 < w := Nat.pos_of_ne_zero (by omega)
    exact_mod_cast this
  unfold spanOf
  refine ⟨div_nonneg (Nat.cast_nonneg c) (le_of_lt hw), ?_, ?_⟩
  · rw [div_lt_div_iff_of_pos_right hw]
    linarith
  · rw [div_le_one hw]
    have : (c : ℚ) + 1 ≤ w := by
      have : (c + 1 : ℕ) ≤ w := h
      exact_mod_cast this
    exact this

/-- C7: every event in the input of the Markus algorithm is assigned a
horizontal span `[x0, x1)` with `0 ≤ x0 < x1 ≤ 1`, where `x0 = col/width`
and `x1 = (col+1)/width` and the column is strictly below the group
width. -/
theorem markus_span_coverage (events : List Ev) (i : EventId)
    (hi : i ∈ events.map Ev.id) :
    ∃ x0 x1, layoutQuery (markusCompute events) i = some (x0, x1) ∧
      0 ≤ x0 ∧ x0 < x1 ∧ x1 ≤ 1 := by
  obtain ⟨c, w, hq, hcw⟩ := markus_query_shape events i hi
  obtain ⟨h0, h1, h2⟩ := spanOf_bounds hcw
  exact ⟨(spanOf c w).1, (spanOf c w).2, hq, h0, h1, h2⟩

/-- Witness for C7 at a concrete one-event input. -/
theorem markus_span_coverage_witness :
    ("B" : EventId) ∈ ([⟨"B", 1800, 5400⟩] : List Ev).map Ev.id ∧
    ∃ x0 x1, layoutQuery (markusCompute [⟨"B", 1800, 5400⟩]) "B" =
        some (x0, x1) ∧ 0 ≤ x0 ∧ x0 < x1 ∧ x1 ≤ 1 :=
  ⟨by decide, markus_span_coverage [⟨"B", 1800, 5400⟩] "B" (by decide)⟩

/-! ## C1: overlapping spans imply time-disjoint events

`evMapFind` lemmas: the hash map lookup returns a member with the looked-up
id, and under distinct ids it returns exactly the event itself. -/

theorem evMapFind_go (l : List Ev) (i : EventId) (acc : Option Ev) :
    l.foldl (fun acc e => if e.id = i then some e else acc) acc =
      (evMapFind l i).or acc := by
  induction l generalizing acc with
  | nil => rfl
  | cons x l ih =>
      show l.foldl (fun acc e => if e.id = i then some e else acc)
          (if x.id = i then some x else acc) = _
      rw [ih]
      have hr : evMapFind (x :: l) i =
          (evMapFind l i).or (if x.id = i then some x else none) := by
        show l.foldl (fun acc e => if e.id = i then some e else acc)
            (if x.id = i then some x else none) = _
        rw [ih]
      rw [hr]
      cases evMapFind l i with
      | some y => rfl
      | none => by_cases hx : x.id = i <;> simp [hx]

theorem evMapFind_cons (x : Ev) (l : List Ev) (i : EventId) :
    evMapFind (x :: l) i =
      (evMapFind l i).or (if x.id = i then some x else none) := by
  show l.foldl (fun acc e => if e.id = i then some e else acc)
      (if x.id = i then some x else none) = _
  rw [evMapFind_go]

theorem evMapFind_mem {l : List Ev} {i : EventId} {e : Ev}
    (h : evMapFind l i = some e) : e ∈ l ∧ e.id = i := by
  induction l with
  | nil => cases h
  | cons x l ih =>
      rw [evMapFind_cons] at h
      cases hl : evMapFind l i with
      | some y =>
          rw [hl] at h
          obtain rfl := Option.some_inj.mp h
          obtain ⟨hy, hyi⟩ := ih hl
          exact ⟨List.mem_cons_of_mem _ hy, hyi⟩
      | none =>
          rw [hl, Option.none_or] at h
          by_cases hx : x.id = i
          · rw [if_pos hx] at h
            obtain rfl := Option.some_inj.mp h
            exact ⟨List.mem_cons_self _ _, hx⟩
          · rw [if_neg hx] at h
            cases h

theorem evMapFind_not_mem {l : List Ev} {i : EventId}
    (h : ∀ e ∈ l, e.id ≠ i) : evMapFind l i = none := by
  induction l with
  | nil => rfl
  | cons x l ih =>
      rw [evMapFind_cons, ih (fun e he => h e (List.mem_cons_of_mem _ he)),
        if_neg (h x (List.mem_cons_self _ _)), Option.none_or]

theorem evMapFind_self {l : List Ev} {e : Ev} (hnd : (l.map Ev.id).Nodup)
    (he : e ∈ l) : evMapFind l e.id = some e := by
  induction l with
  | nil => cases he
  | cons x l ih =>
      rw [List.map_cons, List.nodup_cons] at hnd
      rcases List.mem_cons.mp he with rfl | he2
      · rw [evMapFind_cons, evMapFind_not_mem, Option.none_or, if_pos rfl]
        intro y hy hyx
        exact hnd.1 (hyx ▸ List.mem_map_of_mem Ev.id hy)
      · rw [evMapFind_cons, ih hnd.2 he2]
        rfl

theorem overlaps_comm (a b : Ev) : overlaps a b = overlaps b a := by
  unfold overlaps
  rw [max_comm, min_comm]

theorem overlaps_false_iff {a b : Ev} :
    overlaps a b = false ↔
      ¬(max a.start b.start < min a.«end» b.«end») := by
  unfold overlaps
  exact decide_eq_false_iff_not

/-- Two members of one group assigned the same column never overlap in
time (events read through the `ev_map` lookup). -/
def groupSameColOK (evs : List Ev) (g : List (EventId × Nat)) : Prop :=
  ∀ p ∈ g, ∀ q ∈ g, p.1 ≠ q.1 → p.2 = q.2 →
    ∀ ea eb : Ev, evMapFind evs p.1 = some ea →
      evMapFind evs q.1 = some eb → overlaps ea eb = false

/-- Every member of the first group ends no later than any member of the
second group starts. -/
def groupBefore (evs : List Ev) (g1 g2 : List (EventId × Nat)) : Prop :=
  ∀ p ∈ g1, ∀ q ∈ g2, ∀ ea eb : Ev,
    evMapFind evs p.1 = some ea → evMapFind evs q.1 = some eb →
      ea.«end» ≤ eb.start

/-- Loop invariant for the Markus group loop, for a state reached after
processing `done` with `rest` still to process (`evs = done ++ rest`). -/
structure InvB (evs done rest : List Ev) (st : MState) : Prop where
  keys_group : ∀ p ∈ st.group, ∃ e ∈ done, e.id = p.1
  keys_groups : ∀ gw ∈ st.groups, ∀ p ∈ gw.1, ∃ e ∈ done, e.id = p.1
  samecol_group : groupSameColOK evs st.group
  samecol_groups : ∀ gw ∈ st.groups, groupSameColOK evs gw.1
  before_current : ∀ gw ∈ st.groups, groupBefore evs gw.1 st.group
  before_rest : ∀ gw ∈ st.groups, ∀ p ∈ gw.1, ∀ ea : Ev,
    evMapFind evs p.1 = some ea → ∀ r ∈ rest, ea.«end» ≤ r.start
  pairwise_groups :
    List.Pairwise (fun a b => groupBefore evs a.1 b.1) st.groups

theorem invB_init (evs : List Ev) : InvB evs [] evs ⟨[], [], 1⟩ := by
  refine ⟨?_, ?_, ?_, ?_, ?_, ?_, ?_⟩ <;>
    first
      | exact fun p hp => absurd hp (List.not_mem_nil p)
      | exact fun p hp => absurd hp (List.not_mem_nil p) |>.elim
      | exact List.Pairwise.nil

theorem invB_step (evs done rest : List Ev) (e : Ev) (st : MState)
    (hpos : ∀ x ∈ evs, x.start < x.«end»)
    (hnodup : (evs.map Ev.id).Nodup)
    (hsplit : evs = done ++ e :: rest)
    (hsorted : List.Pairwise (fun a b : Ev => a.start ≤ b.start) evs)
    (h : InvB evs done (e :: rest) st) :
    InvB evs (done ++ [e]) rest (markusStep evs st e) := by
  obtain ⟨-, -, hcross⟩ :=
    List.pairwise_append.mp (hsplit ▸ hsorted)
  have herest : ∀ r ∈ rest, e.start ≤ r.start := by
    have hper := (List.pairwise_append.mp (hsplit ▸ hsorted)).2.1
    exact (List.pairwise_cons.mp hper).1
  have he_evs : e ∈ evs := by
    rw [hsplit]
    exact List.mem_append_right _ (List.mem_cons_self _ _)
  have hdone_sub : ∀ d ∈ done, d ∈ evs := by
    intro d hd
    rw [hsplit]
    exact List.mem_append_left _ hd
  have hfe : evMapFind evs e.id = some e := evMapFind_self hnodup he_evs
  have hfe_uniq : ∀ eb : Ev, evMapFind evs e.id = some eb → eb = e := by
    intro eb hb
    rw [hfe] at hb
    exact (Option.some_inj.mp hb).symm
  have hfind_done : ∀ p ∈ st.group, ∀ ea : Ev,
      evMapFind evs p.1 = some ea → ea ∈ done := by
    intro p hp ea hfind
    obtain ⟨d, hd, hdi⟩ := h.keys_group p hp
    obtain ⟨hmem, hid⟩ := evMapFind_mem hfind
    have : ea = d :=
      List.inj_on_of_nodup_map hnodup hmem (hdone_sub d hd) (by rw [hid, hdi])
    rw [this]
    exact hd
  have hstart_le : ∀ p ∈ st.group, ∀ ea : Ev,
      evMapFind evs p.1 = some ea → ea.start ≤ e.start := by
    intro p hp ea hf
    exact hcross _ (hfind_done p hp ea hf) _ (List.mem_cons_self _ _)
  have hoverlap_le : ∀ ea : Ev, ea.start ≤ e.start →
      overlaps e ea = false → ea.«end» ≤ e.start := by
    intro ea hst hov
    rw [overlaps_false_iff] at hov
    have hee : e.start < e.«end» := hpos e he_evs
    omega
  unfold markusStep
  split_ifs with h1 h2
  · -- the current group is empty: put the event in column 0
    rw [List.isEmpty_iff] at h1
    refine ⟨?_, ?_, ?_, ?_, ?_, ?_, h.pairwise_groups⟩
    · intro p hp
      rcases mapInsert_mem hp with rfl | hp2
      · exact ⟨e, List.mem_append_right _ (List.mem_cons_self _ _), rfl⟩
      · obtain ⟨d, hd, hdi⟩ := h.keys_group p hp2
        exact ⟨d, List.mem_append_left _ hd, hdi⟩
    · intro gw hgw p hp
      obtain ⟨d, hd, hdi⟩ := h.keys_groups gw hgw p hp
      exact ⟨d, List.mem_append_left _ hd, hdi⟩
    · intro p hp q hq hne hcol ea eb hfa hfb
      rcases mapInsert_mem hp with rfl | hp2
      · rcases mapInsert_mem hq with rfl | hq2
        · exact absurd rfl hne
        · rw [h1] at hq2
          cases hq2
      · rw [h1] at hp2
        cases hp2
    · exact h.samecol_groups
    · intro gw hgw p hp q hq ea eb hfa hfb
      rcases mapInsert_mem hq with rfl | hq2
      · rw [hfe_uniq eb hfb]
        exact h.before_rest gw hgw p hp ea hfa e (List.mem_cons_self _ _)
      · rw [h1] at hq2
        cases hq2
    · intro gw hgw p hp ea hfa r hr
      exact h.before_rest gw hgw p hp ea hfa r (List.mem_cons_of_mem _ hr)
  · -- no overlap with the current group: close it and start a new one
    have hany : st.group.any (fun p => overlapsId evs e p.1) = false := by
      revert h2
      cases st.group.any (fun p => overlapsId evs e p.1) <;> simp
    have hno : ∀ p ∈ st.group, overlapsId evs e p.1 = false :=
      fun p hp => by
        have := List.any_eq_false.mp hany p hp
        revert this
        cases overlapsId evs e p.1 <;> simp
    have hclose : ∀ p ∈ st.group, ∀ ea : Ev,
        evMapFind evs p.1 = some ea → ea.«end» ≤ e.start := by
      intro p hp ea hf
      have hov : overlaps e ea = false := by
        have := hno p hp
        unfold overlapsId at this
        rw [hf] at this
        exact this
      exact hoverlap_le ea (hstart_le p hp ea hf) hov
    refine ⟨?_, ?_, ?_, ?_, ?_, ?_, ?_⟩
    · intro p hp
      rcases mapInsert_mem hp with rfl | hp2
      · exact ⟨e, List.mem_append_right _ (List.mem_cons_self _ _), rfl⟩
      · cases hp2
    · intro gw hgw p hp
      rcases List.mem_append.mp hgw with hgw2 | hgw2
      · obtain ⟨d, hd, hdi⟩ := h.keys_groups gw hgw2 p hp
        exact ⟨d, List.mem_append_left _ hd, hdi⟩
      · rw [List.mem_singleton.mp hgw2] at hp
        obtain ⟨d, hd, hdi⟩ := h.keys_group p hp
        exact ⟨d, List.mem_append_left _ hd, hdi⟩
    · intro p hp q hq hne hcol ea eb hfa hfb
      rcases mapInsert_mem hp with rfl | hp2
      · rcases mapInsert_mem hq with rfl | hq2
        · exact absurd rfl hne
        · cases hq2
      · cases hp2
    · intro gw hgw
      rcases List.mem_append.mp hgw with hgw2 | hgw2
      · exact h.samecol_groups gw hgw2
      · rw [List.mem_singleton.mp hgw2]
        exact h.samecol_group
    · intro gw hgw p hp q hq ea eb hfa hfb
      rcases mapInsert_mem hq with rfl | hq2
      swap
      · cases hq2
      rw [hfe_uniq eb hfb]
      rcases List.mem_append.mp hgw with hgw2 | hgw2
      · exact h.before_rest gw hgw2 p hp ea hfa e (List.mem_cons_self _ _)
      · rw [List.mem_singleton.mp hgw2] at hp
        exact hclose p hp ea hfa
    · intro gw hgw p hp ea hfa r hr
      rcases List.mem_append.mp hgw with hgw2 | hgw2
      · exact h.before_rest gw hgw2 p hp ea hfa r (List.mem_cons_of_mem _ hr)
      · rw [List.mem_singleton.mp hgw2] at hp
        exact le_trans (hclose p hp ea hfa) (herest r hr)
    · rw [List.pairwise_append]
      refine ⟨h.pairwise_groups, by simp, ?_⟩
      intro a ha b hb
      rw [List.mem_singleton.mp hb]
      exact h.before_current a ha
  · -- overlap: place the event in the first free column
    cases hfind : (List.range (st.group_width + 1)).find?
        (fun c => !(slotUsed evs st.group e c)) with
    | none =>
        refine ⟨?_, ?_, h.samecol_group, h.samecol_groups, h.before_current,
          ?_, h.pairwise_groups⟩
        · intro p hp
          obtain ⟨d, hd, hdi⟩ := h.keys_group p hp
          exact ⟨d, List.mem_append_left _ hd, hdi⟩
        · intro gw hgw p hp
          obtain ⟨d, hd, hdi⟩ := h.keys_groups gw hgw p hp
          exact ⟨d, List.mem_append_left _ hd, hdi⟩
        · intro gw hgw p hp ea hfa r hr
          exact h.before_rest gw hgw p hp ea hfa r (List.mem_cons_of_mem _ hr)
    | some col =>
        have hslot : slotUsed evs st.group e col = false := by
          have := List.find?_some hfind
          simpa using this
        have hfree : ∀ q ∈ st.group, q.2 = col →
            overlapsId evs e q.1 = false := by
          intro q hq hqc
          have hmem : q ∈ st.group.filter (fun p => p.2 == col) :=
            List.mem_filter.mpr ⟨hq, by simp [hqc]⟩
          have := List.any_eq_false.mp hslot q hmem
          revert this
          cases overlapsId evs e q.1 <;> simp
        have hfree_ev : ∀ q ∈ st.group, q.2 = col → ∀ eb : Ev,
            evMapFind evs q.1 = some eb → overlaps e eb = false := by
          intro q hq hqc eb hfb
          have := hfree q hq hqc
          unfold overlapsId at this
          rw [hfb] at this
          exact this
        refine ⟨?_, ?_, ?_, h.samecol_groups, ?_, ?_, h.pairwise_groups⟩
        · intro p hp
          rcases mapInsert_mem hp with rfl | hp2
          · exact ⟨e, List.mem_append_right _ (List.mem_cons_self _ _), rfl⟩
          · obtain ⟨d, hd, hdi⟩ := h.keys_group p hp2
            exact ⟨d, List.mem_append_left _ hd, hdi⟩
        · intro gw hgw p hp
          obtain ⟨d, hd, hdi⟩ := h.keys_groups gw hgw p hp
          exact ⟨d, List.mem_append_left _ hd, hdi⟩
        · intro p hp q hq hne hcol ea eb hfa hfb
          rcases mapInsert_mem hp with rfl | hp2
          · rcases mapInsert_mem hq with rfl | hq2
            · exact absurd rfl hne
            · rw [hfe_uniq ea hfa]
              exact hfree_ev q hq2 (by omega) eb hfb
          · rcases mapInsert_mem hq with rfl | hq2
            · rw [hfe_uniq eb hfb, overlaps_comm]
              exact hfree_ev p hp2 (by omega) ea hfa
            · exact h.samecol_group p hp2 q hq2 hne hcol ea eb hfa hfb
        · intro gw hgw p hp q hq ea eb hfa hfb
          rcases mapInsert_mem hq with rfl | hq2
          · rw [hfe_uniq eb hfb]
            exact h.before_rest gw hgw p hp ea hfa e (List.mem_cons_self _ _)
          · exact h.before_current gw hgw p hp q hq2 ea eb hfa hfb
        · intro gw hgw p hp ea hfa r hr
          exact h.before_rest gw hgw p hp ea hfa r (List.mem_cons_of_mem _ hr)

theorem invB_foldl (evs : List Ev)
    (hpos : ∀ x ∈ evs, x.start < x.«end»)
    (hnodup : (evs.map Ev.id).Nodup)
    (hsorted : List.Pairwise (fun a b : Ev => a.start ≤ b.start) evs) :
    ∀ (rest done : List Ev) (st : MState), evs = done ++ rest →
      InvB evs done rest st →
      InvB evs evs [] (rest.foldl (markusStep evs) st) := by
  intro rest
  induction rest with
  | nil =>
      intro done st hsplit h
      rw [List.append_nil] at hsplit
      subst hsplit
      exact h
  | cons e rest ih =>
      intro done st hsplit h
      rw [List.foldl_cons]
      refine ih (done ++ [e]) _ ?_
        (invB_step evs done rest e st hpos hnodup hsplit hsorted h)
      rw [hsplit]
      simp

theorem markusSorted_sorted (events : List Ev) :
    List.Pairwise (fun a b : Ev => a.start ≤ b.start)
      (markusSorted events) := by
  have htrans : ∀ a b c : Ev, (fun a b : Ev => decide (a.start ≤ b.start)) a b
      = true →
      (fun a b : Ev => decide (a.start ≤ b.start)) b c = true →
      (fun a b : Ev => decide (a.start ≤ b.start)) a c = true := by
    intro a b c hab hbc
    simp only [decide_eq_true_eq] at hab hbc ⊢
    omega
  have htotal : ∀ a b : Ev, ((fun a b : Ev => decide (a.start ≤ b.start)) a b
      || (fun a b : Ev => decide (a.start ≤ b.start)) b a) = true := by
    intro a b
    simp only [Bool.or_eq_true, decide_eq_true_eq]
    omega
  have := List.sorted_mergeSort htrans htotal events
  exact this.imp (fun hab => of_decide_eq_true hab)

/-- Final shape of the groups produced by the Markus loop: within each
group, same-column members do not overlap in time, and the groups are
chronologically ordered (members of an earlier group end before members of
a later group start). -/
theorem markusAllGroups_props (events : List Ev)
    (hpos : ∀ x ∈ markusSorted events, x.start < x.«end»)
    (hnodup : ((markusSorted events).map Ev.id).Nodup) :
    (∀ gw ∈ markusAllGroups events,
      groupSameColOK (markusSorted events) gw.1) ∧
    List.Pairwise (fun a b => groupBefore (markusSorted events) a.1 b.1)
      (markusAllGroups events) := by
  have hfin : InvB (markusSorted events) (markusSorted events) []
      (markusFold (markusSorted events)) :=
    invB_foldl _ hpos hnodup (markusSorted_sorted events)
      (markusSorted events) [] ⟨[], [], 1⟩ rfl (invB_init _)
  simp only [markusAllGroups]
  split_ifs with hemp
  · exact ⟨hfin.samecol_groups, hfin.pairwise_groups⟩
  · constructor
    · intro gw hgw
      rcases List.mem_append.mp hgw with h | h
      · exact hfin.samecol_groups gw h
      · rw [List.mem_singleton.mp h]
        exact hfin.samecol_group
    · rw [List.pairwise_append]
      refine ⟨hfin.pairwise_groups, by simp, ?_⟩
      intro a ha b hb
      rw [List.mem_singleton.mp hb]
      exact hfin.before_current a ha

theorem pairwise_mem_cases {α : Type _} {R : α → α → Prop} {l : List α}
    (h : List.Pairwise R l) {x y : α} (hx : x ∈ l) (hy : y ∈ l) :
    x = y ∨ R x y ∨ R y x := by
  induction l with
  | nil => cases hx
  | cons z l ih =>
      obtain ⟨hz, hl⟩ := List.pairwise_cons.mp h
      rcases List.mem_cons.mp hx with rfl | hx2
      · rcases List.mem_cons.mp hy with rfl | hy2
        · exact Or.inl rfl
        · exact Or.inr (Or.inl (hz y hy2))
      · rcases List.mem_cons.mp hy with rfl | hy2
        · exact Or.inr (Or.inr (hz x hx2))
        · exact ih hl hx2 hy2

/-- Distinct columns of the same group give disjoint spans. -/
theorem spanOf_disjoint {c1 c2 w : Nat} (h1 : c1 < w) (h2 : c2 < w)
    (hne : c1 ≠ c2) :
    ¬ max (spanOf c1 w).1 (spanOf c2 w).1 <
        min (spanOf c1 w).2 (spanOf c2 w).2 := by
  have hw : (0 : ℚ) < w := by
    have : 0 < w := by omega
    exact_mod_cast this
  have key : ∀ a b : Nat, a < b → b < w →
      ¬ max (spanOf a w).1 (spanOf b w).1 <
          min (spanOf a w).2 (spanOf b w).2 := by
    intro a b hab hbw
    have hle : ((a : ℚ) + 1) / w ≤ (b : ℚ) / w := by
      rw [div_le_div_iff_of_pos_right hw]
      have : (a + 1 : ℕ) ≤ b := hab
      exact_mod_cast this
    unfold spanOf
    intro hcon
    simp only [max_lt_iff, lt_min_iff] at hcon
    linarith [hcon.2.1, hcon.1.2]
  rcases Nat.lt_or_ge c1 c2 with hlt | hge
  · exact key c1 c2 hlt h2
  · have hlt : c2 < c1 := by omega
    intro hcon
    exact key c2 c1 hlt h1 (by rw [max_comm, min_comm]; exact hcon)

/-- C1: for any set of same-day events given to the Markus layout
algorithm (events with positive duration and distinct ids), no two
distinct events whose assigned horizontal spans overlap as intervals
(strict test) also overlap in time (strict test
`max(start1, start2) < min(end1, end2)`). -/
theorem markus_no_overlap (events : List Ev)
    (hpos : ∀ x ∈ events, x.start < x.«end»)
    (hnodup : (events.map Ev.id).Nodup)
    (a b : Ev) (ha : a ∈ events) (hb : b ∈ events) (hab : a.id ≠ b.id)
    (sa sb : ℚ × ℚ)
    (hqa : layoutQuery (markusCompute events) a.id = some sa)
    (hqb : layoutQuery (markusCompute events) b.id = some sb)
    (hspan : max sa.1 sb.1 < min sa.2 sb.2) :
    ¬(max a.start b.start < min a.«end» b.«end») := by
  have hperm := List.mergeSort_perm events
    (fun a b : Ev => decide (a.start ≤ b.start))
  have hpos2 : ∀ x ∈ markusSorted events, x.start < x.«end» :=
    fun x hx => hpos x (hperm.mem_iff.mp hx)
  have hnodup2 : ((markusSorted events).map Ev.id).Nodup :=
    ((hperm.map Ev.id).nodup_iff).mpr hnodup
  have ha2 : a ∈ markusSorted events := hperm.mem_iff.mpr ha
  have hb2 : b ∈ markusSorted events := hperm.mem_iff.mpr hb
  have hfa : evMapFind (markusSorted events) a.id = some a :=
    evMapFind_self hnodup2 ha2
  have hfb : evMapFind (markusSorted events) b.id = some b :=
    evMapFind_self hnodup2 hb2
  obtain ⟨hsamecol, hpairwise⟩ := markusAllGroups_props events hpos2 hnodup2
  -- decompose the two query results into group membership
  unfold layoutQuery at hqa hqb
  obtain ⟨ra, hra, hrava⟩ := Option.map_eq_some'.mp hqa
  obtain ⟨rb, hrb, hrbvb⟩ := Option.map_eq_some'.mp hqb
  have hra_id : ra.1 = a.id := by
    have := List.find?_some hra
    simpa using this
  have hrb_id : rb.1 = b.id := by
    have := List.find?_some hrb
    simpa using this
  obtain ⟨gwa, hgwa, qa, hqa2, hqar⟩ :=
    layoutOfGroups_mem _ ra (List.mem_of_find?_eq_some hra)
  obtain ⟨gwb, hgwb, qb, hqb2, hqbr⟩ :=
    layoutOfGroups_mem _ rb (List.mem_of_find?_eq_some hrb)
  have hqa_id : qa.1 = a.id := by rw [hqar] at hra_id; exact hra_id
  have hqb_id : qb.1 = b.id := by rw [hqbr] at hrb_id; exact hrb_id
  have hsa : sa = spanOf qa.2 gwa.2 := by rw [← hrava, hqar]
  have hsb : sb = spanOf qb.2 gwb.2 := by rw [← hrbvb, hqbr]
  have hca : qa.2 < gwa.2 := markusAllGroups_colsOK events gwa hgwa qa hqa2
  have hcb : qb.2 < gwb.2 := markusAllGroups_colsOK events gwb hgwb qb hqb2
  have hfa2 : evMapFind (markusSorted events) qa.1 = some a := by
    rw [hqa_id]; exact hfa
  have hfb2 : evMapFind (markusSorted events) qb.1 = some b := by
    rw [hqb_id]; exact hfb
  rcases pairwise_mem_cases hpairwise hgwa hgwb with heq | hbef | hbef
  · -- same group
    subst heq
    by_cases hcol : qa.2 = qb.2
    · -- same column: the insertion check rules out a time overlap
      have hov := hsamecol gwa hgwa qa hqa2 qb hqb2
        (by rw [hqa_id, hqb_id]; exact hab) hcol a b hfa2 hfb2
      rw [overlaps_false_iff] at hov
      exact hov
    · -- distinct columns of one group: the spans cannot overlap
      exfalso
      rw [hsa, hsb] at hspan
      exact spanOf_disjoint hca hcb hcol hspan
  · -- the group of `a` closed before the group of `b` opened
    have hle : a.«end» ≤ b.start := hbef qa hqa2 qb hqb2 a b hfa2 hfb2
    omega
  · -- the group of `b` closed before the group of `a` opened
    have hle : b.«end» ≤ a.start := hbef qb hqb2 qa hqa2 b a hfb2 hfa2
    omega

def wEvA : Ev := ⟨"A", 0, 3600⟩

def wEvB : Ev := ⟨"B", 3600, 7200⟩

theorem wEv_sorted : markusSorted [wEvA, wEvB] = [wEvA, wEvB] :=
  List.mergeSort_of_sorted (by decide)

theorem wEv_query_A :
    layoutQuery (markusCompute [wEvA, wEvB]) wEvA.id = some (spanOf 0 1) := by
  unfold markusCompute markusAllGroups markusFold
  rw [wEv_sorted]
  rfl

theorem wEv_query_B :
    layoutQuery (markusCompute [wEvA, wEvB]) wEvB.id = some (spanOf 0 1) := by
  unfold markusCompute markusAllGroups markusFold
  rw [wEv_sorted]
  rfl

/-- Witness for C1: two touching (hence non-overlapping) events land in
two groups, both with the full span `[0, 1)`; the spans overlap and the
times indeed do not. -/
theorem markus_no_overlap_witness :
    (∀ x ∈ [wEvA, wEvB], x.start < x.«end») ∧
    (([wEvA, wEvB].map Ev.id).Nodup ∧ wEvA.id ≠ wEvB.id) ∧
    ¬(max wEvA.start wEvB.start < min wEvA.«end» wEvB.«end») :=
  ⟨by decide, ⟨by decide, by decide⟩,
   markus_no_overlap [wEvA, wEvB] (by decide) (by decide) wEvA wEvB
     (by decide) (by decide) (by decide) (spanOf 0 1) (spanOf 0 1)
     wEv_query_A wEv_query_B (by norm_num [spanOf])⟩

end Malakal
